import Mathlib

/-
Verification of the camoufox public-IP resolution module
(pythonlib/camoufox/ip.py): proxy server parsing and serialization,
IPv4/IPv6 grammar validation, and the endpoint loop of public_ip with its
lru_cache memoization. Python regexes are modelled operationally, including
the behaviour of the dollar anchor in Python re, which also matches just
before a newline that is the final character. The regex classes for word
characters and digits are modelled over their ASCII ranges; every concrete
input considered below is ASCII, where the two semantics agree.
-/

set_option maxHeartbeats 1000000

namespace Camoufox

/-- ASCII model of the regex word-character class used for the scheme. -/
def wordChar (c : Char) : Bool := c.isAlphanum || c = '_'

/-- Hexadecimal digit, the regex class [0-9a-fA-F]. -/
def hexDigit (c : Char) : Bool := c.isDigit || ('a' ≤ c && c ≤ 'f') || ('A' ≤ c && c ≤ 'F')

/-- Whitespace removed by the Python str.strip call (ASCII range). -/
def pySpace (c : Char) : Bool :=
  c = ' ' || c = '\t' || c = '\n' || c = '\r' || c = '\x0b' || c = '\x0c'

/-- Model of the regex dollar anchor in Python re without MULTILINE: it
matches at the end of the string, or just before a newline that is the final
character. A remainder is accepted exactly when it is empty or a single
newline. -/
def endMark (l : List Char) : Bool := l.isEmpty || l = ['\n']

/-- Attempted match of the optional port group of the server regex (a colon,
one or more digits, then the dollar anchor). Returns the digit group when the
remainder is a colon followed by a nonempty digit run reaching the anchor.
Backtracking inside the digit run cannot help, since the anchor only matches
at the final two positions. -/
def portMatch : List Char → Option (List Char)
  | [] => none
  | c :: t =>
    if c = ':' then
      let d := t.takeWhile Char.isDigit
      if !d.isEmpty && endMark (t.dropWhile Char.isDigit) then some d else none
    else none

/-- Backtracking tail of the server regex after the scheme and the double
slash: a lazy dot-star for the host, then the optional port group, then the
dollar anchor. The lazy star prefers the shortest host, the optional group is
tried before the bare anchor, and the host cannot contain a newline. -/
def matchTail (acc : List Char) : List Char → Option (List Char × Option (List Char))
  | [] => some (acc.reverse, none)
  | c :: t =>
    match portMatch (c :: t) with
    | some d => some (acc.reverse, some d)
    | none =>
      if c = '\n' then
        if t.isEmpty then some (acc.reverse, none) else none
      else matchTail (c :: acc) t

/-- The Proxy dataclass of camoufox.ip: it stores the server string and the
credentials verbatim, and its constructor performs no validation. -/
structure Proxy where
  server : String
  username : String
  password : String
deriving DecidableEq

/-- Model of Proxy.parse_server, the re.match of the server regex: a scheme of
one or more word characters, the literal separator, a lazy host group, and an
optional port group of one or more digits before the dollar anchor. Returns
none exactly when the regex does not match, where the Python code raises
InvalidProxy. -/
def Proxy.parse_server (s : String) : Option (String × String × Option String) :=
  if (s.data.takeWhile wordChar).isEmpty then none
  else
    match s.data.dropWhile wordChar with
    | a :: b :: c :: rest =>
      if a = ':' ∧ b = '/' ∧ c = '/' then
        (matchTail [] rest).map (fun up =>
          (String.mk (s.data.takeWhile wordChar), String.mk up.1, Option.map String.mk up.2))
      else none
    | _ => none

/-- Model of Proxy.as_string. The at-sign separator is appended
unconditionally, outside the username conditional, exactly as in the source.
Python truthiness: None and the empty string are falsy. -/
def Proxy.as_string (p : Proxy) : Option String :=
  match Proxy.parse_server p.server with
  | none => none
  | some (schema, url, port) =>
    let r1 := schema ++ "://"
    let r2 :=
      if p.username ≠ "" then
        r1 ++ p.username ++ (if p.password ≠ "" then ":" ++ p.password else "")
      else r1
    let r3 := r2 ++ "@" ++ url
    match port with
    | some d => if d ≠ "" then some (r3 ++ ":" ++ d) else some r3
    | none => some r3

/-- Model of the static method Proxy.as_requests_proxy: both protocol keys map
to the given proxy string verbatim; nothing is parsed. -/
def Proxy.as_requests_proxy (proxy_string : String) : List (String × String) :=
  [("http", proxy_string), ("https", proxy_string)]

/-- One repetition of the group (one to three digits then a literal dot) of
the valid_ipv4 regex: consumes a maximal nonempty run of at most three digits
and the following dot. Backtracking cannot pick a shorter run, because every
earlier position holds a digit and not a dot. -/
def chompOctetDot (l : List Char) : Option (List Char) :=
  if 1 ≤ (l.takeWhile Char.isDigit).length && (l.takeWhile Char.isDigit).length ≤ 3 then
    match l.dropWhile Char.isDigit with
    | [] => none
    | c :: r => if c = '.' then some r else none
  else none

/-- Final part of the valid_ipv4 regex: one to three digits, then the dollar
anchor. -/
def lastOctet (l : List Char) : Bool :=
  1 ≤ (l.takeWhile Char.isDigit).length && (l.takeWhile Char.isDigit).length ≤ 3
    && endMark (l.dropWhile Char.isDigit)

/-- Model of valid_ipv4: the anchored regex of three digit groups each
followed by a dot, then a final digit group and the dollar anchor. -/
def valid_ipv4 (s : String) : Bool :=
  match chompOctetDot s.data with
  | none => false
  | some r1 =>
    match chompOctetDot r1 with
    | none => false
    | some r2 =>
      match chompOctetDot r2 with
      | none => false
      | some r3 => lastOctet r3

/-- Loop of the valid_ipv6 regex: between one and seven repetitions of (zero
to four hex digits then a colon), followed by zero to four hex digits and the
dollar anchor. Each repetition is forced, because the tail fails wherever a
further repetition can match; count is the number of repetitions consumed so
far. The fuel argument strictly exceeds the list length at the top call and
decreases by one per repetition, each of which consumes at least the colon. -/
def ipv6Units : Nat → List Char → Nat → Bool
  | 0, _, _ => false
  | fuel + 1, l, count =>
    match l.dropWhile hexDigit with
    | [] => decide (1 ≤ count) && decide ((l.takeWhile hexDigit).length ≤ 4) && endMark []
    | c :: rest =>
      if c = ':' then
        decide ((l.takeWhile hexDigit).length ≤ 4) && decide (count < 7)
          && ipv6Units fuel rest (count + 1)
      else
        decide (1 ≤ count) && decide ((l.takeWhile hexDigit).length ≤ 4) && endMark (c :: rest)

/-- Model of valid_ipv6, the anchored hex-groups regex of camoufox.ip. -/
def valid_ipv6 (s : String) : Bool := ipv6Units (s.data.length + 1) s.data 0

/-- Model of validate_ip: true exactly when the Python function does not
raise InvalidIP. -/
def validate_ip (ip : String) : Bool := valid_ipv4 ip || valid_ipv6 ip

/-- Model of the Python str.strip call applied to the response body. -/
def strip (s : String) : String :=
  String.mk (((s.data.dropWhile pySpace).reverse.dropWhile pySpace).reverse)

/-- Outcome of one HTTP GET as observed by public_ip: either a raised
RequestException (network error or timeout), or a final response carrying a
status code and a text body. -/
inductive HttpOutcome where
  | exc : HttpOutcome
  | resp (status : Nat) (text : String) : HttpOutcome
deriving DecidableEq

/-- The exception classes imported from camoufox.exceptions. -/
inductive IPError where
  | invalidProxy (msg : String)
  | invalidIP (msg : String)
deriving DecidableEq

/-- Result of a call to public_ip: a returned IP string or a raised
exception. -/
inductive IPResult where
  | ok (ip : String)
  | err (e : IPError)
deriving DecidableEq

/-- Record of one network attempt: the endpoint URL and the proxies argument
handed to requests.get. -/
structure Attempt where
  url : String
  proxies : Option (List (String × String))
deriving DecidableEq

/-- The proxies argument built by public_ip: as_requests_proxy of the proxy
when the proxy is truthy, otherwise None. Python truthiness: None and the
empty string are falsy. -/
def proxiesArg : Option String → Option (List (String × String))
  | none => none
  | some p => if p = "" then none else some (Proxy.as_requests_proxy p)

/-- Model of Response.raise_for_status from requests: it raises HTTPError, a
subclass of RequestException, exactly for status codes 400 to 599. -/
def raiseForStatus (status : Nat) : Bool := 400 ≤ status && status < 600

/-- One iteration of the loop body of public_ip for a single URL under a
fixed response oracle: the validated stripped body, or none when the request
raised, the status triggered raise_for_status, or the body failed IP
validation; all three are caught by the loop and skip to the next URL. -/
def tryOne (oracle : String → HttpOutcome) (url : String) : Option String :=
  match oracle url with
  | .exc => none
  | .resp status text =>
    if raiseForStatus status then none
    else
      let ip := strip text
      if validate_ip ip then some ip else none

/-- The fixed ordered endpoint list of public_ip. -/
def URLS : List String :=
  ["https://api.ipify.org", "https://checkip.amazonaws.com", "https://ipinfo.io/ip",
   "https://icanhazip.com", "https://ifconfig.co/ip", "https://ipecho.net/plain"]

/-- The endpoint loop of public_ip, also recording each attempt in order. -/
def public_ip_loop (oracle : String → HttpOutcome) (proxy : Option String) :
    List String → IPResult × List Attempt
  | [] => (.err (.invalidIP "Failed to get IP address"), [])
  | url :: rest =>
    match tryOne oracle url with
    | some ip => (.ok ip, [⟨url, proxiesArg proxy⟩])
    | none =>
      let out := public_ip_loop oracle proxy rest
      (out.1, ⟨url, proxiesArg proxy⟩ :: out.2)

/-- Model of one underlying (uncached) call of public_ip. -/
def public_ip (proxy : Option String) (oracle : String → HttpOutcome) :
    IPResult × List Attempt :=
  public_ip_loop oracle proxy URLS

/-- Process-wide memoization table of public_ip, keyed by its argument. -/
abbrev Cache := List (Option String × String)

/-- Lookup in the memoization table. -/
def cacheLookup : Cache → Option String → Option String
  | [], _ => none
  | (k, v) :: rest, q => if k = q then some v else cacheLookup rest q

/-- Model of the functools lru_cache wrapper around public_ip (maxsize None):
on a hit the stored value is returned without calling the wrapped function;
on a miss the wrapped function runs, and the result is stored only when the
call returns normally, since raised exceptions are not cached. -/
def cached_public_ip (st : Cache) (proxy : Option String) (oracle : String → HttpOutcome) :
    Cache × IPResult × List Attempt :=
  match cacheLookup st proxy with
  | some v => (st, .ok v, [])
  | none =>
    match public_ip proxy oracle with
    | (.ok ip, atts) => ((proxy, ip) :: st, .ok ip, atts)
    | (.err e, atts) => (st, .err e, atts)

/-- Split of a character list at every occurrence of a delimiter. -/
def splitOnChar (c : Char) : List Char → List (List Char)
  | [] => [[]]
  | x :: xs =>
    if x = c then [] :: splitOnChar c xs
    else
      match splitOnChar c xs with
      | [] => [[x]]
      | g :: gs => (x :: g) :: gs

/-- Join of segments with a delimiter, inverse of splitOnChar. -/
def joinSep (c : Char) : List (List Char) → List Char
  | [] => []
  | [g] => g
  | g :: gs => g ++ c :: joinSep c gs

/-- A dotted-quad octet group in the sense of the spec: one to three decimal
digits, with no range check. -/
def octet3 (g : List Char) : Bool :=
  decide (1 ≤ g.length) && decide (g.length ≤ 3) && g.all Char.isDigit

/-- Claim C7 grammar: exactly four dot separated groups of one to three
decimal digits. -/
def fourGroups (l : List Char) : Bool :=
  let segs := splitOnChar '.' l
  decide (segs.length = 4) && segs.all octet3

/-- A hex group of the spec grammar: at most four hex digits, possibly none. -/
def hexGroup (g : List Char) : Bool := decide (g.length ≤ 4) && g.all hexDigit

/-- Amended C8 grammar: two to eight colon separated groups (one to seven
colons), each group holding zero to four hex digits, empty groups permitted at
any position. -/
def ipv6Groups (l : List Char) : Bool :=
  let segs := splitOnChar ':' l
  decide (2 ≤ segs.length) && decide (segs.length ≤ 8) && segs.all hexGroup

/-- Claim C8 grammar as stated: one to seven colon separated groups of up to
four hex digits, permitting one further trailing empty group. -/
def claimGroupsC8 (l : List Char) : Bool :=
  let segs := splitOnChar ':' l
  (decide (1 ≤ segs.length) && decide (segs.length ≤ 7) && segs.all hexGroup) ||
  (decide (2 ≤ segs.length) && decide (segs.length ≤ 8) && decide (segs.getLast? = some [])
    && segs.all hexGroup)

/-- Claim C3 failure notion for one endpoint, as stated: a network error, a
status outside the 2xx range, or a body failing IP validation after
stripping. -/
def claimFails : HttpOutcome → Bool
  | .exc => true
  | .resp status text => !(200 ≤ status && status ≤ 299) || !(validate_ip (strip text))

/-- Code failure notion for one endpoint: a raised request exception, a
status in the 400 to 599 range, or a body failing IP validation after
stripping. -/
def attemptFails : HttpOutcome → Bool
  | .exc => true
  | .resp status text => raiseForStatus status || !(validate_ip (strip text))

/-- Claim C6 grammar as stated: a scheme of one or more word characters, the
separator, a mandatory nonempty host of arbitrary characters, and an optional
colon and digit port. Since the host may be any characters, the grammar holds
exactly when the remainder after the separator is nonempty. -/
def claimServerC6 (l : List Char) : Bool :=
  let w := l.takeWhile wordChar
  match l.dropWhile wordChar with
  | a :: b :: c :: rest =>
    decide (a = ':') && decide (b = '/') && decide (c = '/') && !w.isEmpty && !rest.isEmpty
  | _ => false

/-- Scheme of the amended server grammar: nonempty, all word characters. -/
def schemeChars (w : List Char) : Prop := w ≠ [] ∧ ∀ c ∈ w, wordChar c = true

/-- Host of the amended server grammar: arbitrary characters except newline. -/
def hostChars (h : List Char) : Prop := ∀ c ∈ h, c ≠ '\n'

/-- Tail of the amended server grammar after the host: nothing, a final
newline, or a colon, a nonempty digit run and an optional final newline. -/
def portTail (p4 : List Char) : Prop :=
  p4 = [] ∨ p4 = ['\n'] ∨
    ∃ d e, p4 = ':' :: (d ++ e) ∧ d ≠ [] ∧ (∀ c ∈ d, Char.isDigit c = true) ∧ (e = [] ∨ e = ['\n'])

/-- Amended C6 grammar: scheme, separator, possibly empty newline-free host,
optional digit port, optional final newline. -/
def serverGrammar (s : String) : Prop :=
  ∃ w h p4, s.data = w ++ ':' :: '/' :: '/' :: (h ++ p4)
    ∧ schemeChars w ∧ hostChars h ∧ portTail p4

/-- Spelled-out form of the optional port component of a parse result. -/
def portRepr : Option String → List Char
  | none => []
  | some d => ':' :: d.data

/-- List-level form of portRepr, used while reasoning about matchTail. -/
def portReprL : Option (List Char) → List Char
  | none => []
  | some d => ':' :: d

/-- Decomposition property of a successful parse result: the input is the
returned scheme, the separator, the returned host, the returned port when
present, and at most a final newline. -/
def parsedDecomp (s sc h : String) (p : Option String) : Prop :=
  ∃ e, s.data = sc.data ++ ':' :: '/' :: '/' :: (h.data ++ portRepr p ++ e)
    ∧ schemeChars sc.data ∧ hostChars h.data ∧ (e = [] ∨ e = ['\n'])
    ∧ ∀ d, p = some d → d.data ≠ [] ∧ ∀ c ∈ d.data, Char.isDigit c = true

/-- Join of hex-group repetitions before a tail, mirroring the repetition
structure of the valid_ipv6 regex. -/
def unitsJoin : List (List Char) → List Char → List Char
  | [], tail => tail
  | g :: gs, tail => g ++ ':' :: unitsJoin gs tail

/-- Oracle where every endpoint returns status 200 and the body 1.2.3.4. -/
def oracleAllOk : String → HttpOutcome := fun _ => .resp 200 "1.2.3.4"

/-- Oracle where every endpoint returns status 304 and the body 8.8.8.8. -/
def oracle304 : String → HttpOutcome := fun _ => .resp 304 "8.8.8.8"

/-- Oracle where every request raises. -/
def oracleExc : String → HttpOutcome := fun _ => .exc

/-- Oracle of the C4 scenario: the first two endpoints raise, the next two
return error statuses, the fifth returns a garbage body, and the sixth
returns the address 8.8.8.8. -/
def oracle6 : String → HttpOutcome := fun u =>
  if u = "https://ipecho.net/plain" then .resp 200 "8.8.8.8"
  else if u = "https://ipinfo.io/ip" then .resp 404 "not found"
  else if u = "https://icanhazip.com" then .resp 503 "err"
  else if u = "https://ifconfig.co/ip" then .resp 200 "garbage"
  else .exc

/-- Helper: takeWhile over a satisfying prefix stops at the first failing
character. -/
theorem takeWhile_app (p : Char → Bool) (o : List Char) (x : Char) (r : List Char)
    (ho : ∀ c ∈ o, p c = true) (hx : p x = false) :
    (o ++ x :: r).takeWhile p = o := by
  induction o with
  | nil => simp [List.takeWhile, hx]
  | cons a o ih =>
    have ha : p a = true := ho a (by simp)
    simp only [List.cons_append, List.takeWhile, ha]
    have := ih (fun c hc => ho c (by simp [hc]))
    simp [this]

/-- Helper: dropWhile over a satisfying prefix drops exactly that prefix. -/
theorem dropWhile_app (p : Char → Bool) (o : List Char) (x : Char) (r : List Char)
    (ho : ∀ c ∈ o, p c = true) (hx : p x = false) :
    (o ++ x :: r).dropWhile p = x :: r := by
  induction o with
  | nil => simp [List.dropWhile, hx]
  | cons a o ih =>
    have ha : p a = true := ho a (by simp)
    simp only [List.cons_append, List.dropWhile, ha]
    exact ih (fun c hc => ho c (by simp [hc]))

/-- Helper: takeWhile of an all-satisfying list is the list itself. -/
theorem takeWhile_of_all (p : Char → Bool) (o : List Char)
    (ho : ∀ c ∈ o, p c = true) : o.takeWhile p = o := by
  induction o with
  | nil => rfl
  | cons a o ih =>
    have ha : p a = true := ho a (by simp)
    simp only [List.takeWhile, ha]
    simp [ih (fun c hc => ho c (by simp [hc]))]

/-- Helper: dropWhile of an all-satisfying list is empty. -/
theorem dropWhile_of_all (p : Char → Bool) (o : List Char)
    (ho : ∀ c ∈ o, p c = true) : o.dropWhile p = [] := by
  induction o with
  | nil => rfl
  | cons a o ih =>
    have ha : p a = true := ho a (by simp)
    simp only [List.dropWhile, ha]
    exact ih (fun c hc => ho c (by simp [hc]))

/-- Helper: takeWhile where the appended tail is the end marker of an anchored
match, which never starts with a satisfying character here. -/
theorem takeWhile_app_end (p : Char → Bool) (o e : List Char)
    (ho : ∀ c ∈ o, p c = true) (hnl : p '\n' = false)
    (he : e = [] ∨ e = ['\n']) : (o ++ e).takeWhile p = o := by
  rcases he with he | he <;> subst he
  · simp [takeWhile_of_all p o ho]
  · exact takeWhile_app p o '\n' [] ho hnl

/-- Helper: dropWhile counterpart of takeWhile_app_end. -/
theorem dropWhile_app_end (p : Char → Bool) (o e : List Char)
    (ho : ∀ c ∈ o, p c = true) (hnl : p '\n' = false)
    (he : e = [] ∨ e = ['\n']) : (o ++ e).dropWhile p = e := by
  rcases he with he | he <;> subst he
  · simp [dropWhile_of_all p o ho]
  · exact dropWhile_app p o '\n' [] ho hnl

/-- Helper: the split of a list is never the empty list of segments. -/
theorem splitOnChar_ne_nil (c : Char) (l : List Char) : splitOnChar c l ≠ [] := by
  induction l with
  | nil => simp [splitOnChar]
  | cons x xs ih =>
    by_cases hx : x = c
    · simp [splitOnChar, hx]
    · simp only [splitOnChar, hx, if_false]
      cases h : splitOnChar c xs with
      | nil => simp
      | cons g gs => simp

/-- Helper: joining the split with the delimiter restores the list. -/
theorem joinSep_splitOnChar (c : Char) (l : List Char) :
    joinSep c (splitOnChar c l) = l := by
  induction l with
  | nil => rfl
  | cons x xs ih =>
    by_cases hx : x = c
    · subst hx
      simp only [splitOnChar, if_pos rfl]
      cases h : splitOnChar x xs with
      | nil => exact absurd h (splitOnChar_ne_nil x xs)
      | cons g gs =>
        rw [h] at ih
        simp [joinSep, ih]
    · simp only [splitOnChar, hx, if_false]
      cases h : splitOnChar c xs with
      | nil => exact absurd h (splitOnChar_ne_nil c xs)
      | cons g gs =>
        rw [h] at ih
        cases gs with
        | nil => simp_all [joinSep]
        | cons g2 gs2 => simp_all [joinSep]

/-- Helper: a delimiter-free list splits into a single segment. -/
theorem splitOnChar_no_delim (c : Char) (l : List Char)
    (h : ∀ x ∈ l, x ≠ c) : splitOnChar c l = [l] := by
  induction l with
  | nil => rfl
  | cons a l ih =>
    have ha : a ≠ c := h a (by simp)
    simp only [splitOnChar, ha, if_false]
    rw [ih (fun x hx => h x (by simp [hx]))]

/-- Helper: splitting a list that starts with a delimiter-free segment
followed by the delimiter peels off that segment. -/
theorem splitOnChar_app_delim (c : Char) (o r : List Char)
    (ho : ∀ x ∈ o, x ≠ c) : splitOnChar c (o ++ c :: r) = o :: splitOnChar c r := by
  induction o with
  | nil => simp [splitOnChar]
  | cons a o ih =>
    have ha : a ≠ c := ho a (by simp)
    simp only [List.cons_append, splitOnChar, ha, if_false]
    rw [List.append_eq, ih (fun x hx => ho x (by simp [hx]))]

/-- Helper: the anchor remainder test spelled as a proposition. -/
theorem endMark_iff (l : List Char) : endMark l = true ↔ l = [] ∨ l = ['\n'] := by
  cases l with
  | nil => simp [endMark]
  | cons c t => simp [endMark, List.isEmpty]

/-- Characterization of a successful port-group match: a colon, the returned
nonempty digit run, and an anchor remainder. -/
theorem portMatch_eq_some (l d : List Char) :
    portMatch l = some d ↔
      ∃ e, l = ':' :: (d ++ e) ∧ d ≠ [] ∧ (∀ c ∈ d, Char.isDigit c = true)
        ∧ (e = [] ∨ e = ['\n']) := by
  constructor
  · intro h
    rcases l with _ | ⟨c, t⟩
    · simp [portMatch] at h
    · simp only [portMatch] at h
      split_ifs at h with hc hcond
      · subst hc
        rw [Option.some_inj] at h
        subst h
        refine ⟨t.dropWhile Char.isDigit, ?_, ?_, ?_, ?_⟩
        · rw [List.takeWhile_append_dropWhile]
        · intro hnil
          rw [Bool.and_eq_true, Bool.not_eq_true'] at hcond
          rw [← List.isEmpty_iff] at hnil
          rw [hnil] at hcond
          exact absurd hcond.1 (by simp)
        · intro x hx
          exact List.mem_takeWhile_imp hx
        · rw [Bool.and_eq_true] at hcond
          exact (endMark_iff _).mp hcond.2
  · rintro ⟨e, rfl, hd, hdig, he⟩
    have hnl : Char.isDigit '\n' = false := by decide
    have h1 : (d ++ e).takeWhile Char.isDigit = d := takeWhile_app_end _ d e hdig hnl he
    have h2 : (d ++ e).dropWhile Char.isDigit = e := dropWhile_app_end _ d e hdig hnl he
    simp only [portMatch, if_pos rfl, h1, h2]
    have hde : d.isEmpty = false := by
      cases d with
      | nil => exact absurd rfl hd
      | cons a t => simp [List.isEmpty]
    have hem : endMark e = true := (endMark_iff e).mpr he
    simp [hde, hem]

/-- Decomposition carried by every successful matchTail result: the input is
the host continuation, the port representation, and an anchor remainder; the
returned host is the accumulator (reversed) followed by that continuation. -/
theorem matchTail_some_decomp (rest : List Char) :
    ∀ acc u p, matchTail acc rest = some (u, p) →
      ∃ h2 e, u = acc.reverse ++ h2 ∧ rest = h2 ++ portReprL p ++ e
        ∧ (∀ c ∈ h2, c ≠ '\n') ∧ (e = [] ∨ e = ['\n'])
        ∧ (∀ d, p = some d → d ≠ [] ∧ ∀ c ∈ d, Char.isDigit c = true) := by
  induction rest with
  | nil =>
    intro acc u p h
    simp only [matchTail, Option.some_inj, Prod.mk.injEq] at h
    exact ⟨[], [], by simp [h.1.symm], by simp [h.2.symm, portReprL], by simp, Or.inl rfl,
      by intro d hd; rw [← h.2] at hd; exact absurd hd (by simp)⟩
  | cons c t ih =>
    intro acc u p h
    simp only [matchTail] at h
    cases hpm : portMatch (c :: t) with
    | some d0 =>
      rw [hpm] at h
      simp only [Option.some_inj, Prod.mk.injEq] at h
      obtain ⟨hu, hp⟩ := h
      subst hp
      obtain ⟨e, heq, hd0, hdig, he⟩ := (portMatch_eq_some (c :: t) d0).mp hpm
      refine ⟨[], e, by simp [hu], ?_, by simp, he, ?_⟩
      · simp [portReprL, heq]
      · intro d hd
        rw [Option.some_inj] at hd
        subst hd
        exact ⟨hd0, hdig⟩
    | none =>
      rw [hpm] at h
      have h2 : (if c = '\n' then if t.isEmpty = true then some (acc.reverse, none)
          else none else matchTail (c :: acc) t) = some (u, p) := h
      clear h
      by_cases hc : c = '\n'
      · rw [if_pos hc] at h2
        by_cases hte : t.isEmpty = true
        · rw [if_pos hte] at h2
          simp only [Option.some_inj, Prod.mk.injEq] at h2
          obtain ⟨hu, hp⟩ := h2
          subst hc
          rw [List.isEmpty_iff] at hte
          subst hte
          refine ⟨[], ['\n'], by simp [hu], by simp [← hp, portReprL], by simp,
            Or.inr rfl, ?_⟩
          intro d hd
          rw [← hp] at hd
          exact absurd hd (by simp)
        · rw [if_neg hte] at h2
          exact absurd h2 (by simp)
      · rw [if_neg hc] at h2
        obtain ⟨hh, e, hu, ht, hhh, he, hport⟩ := ih (c :: acc) u p h2
        refine ⟨c :: hh, e, ?_, by simp [ht], ?_, he, hport⟩
        · simp only [List.reverse_cons, List.append_assoc] at hu
          simpa using hu
        · intro x hx
          rcases List.mem_cons.mp hx with rfl | hx
          · exact hc
          · exact hhh x hx

/-- Success of matchTail on any input of host-then-tail shape. -/
theorem matchTail_isSome (h2 : List Char) :
    ∀ acc p4, (∀ c ∈ h2, c ≠ '\n') → portTail p4 →
      (matchTail acc (h2 ++ p4)).isSome = true := by
  induction h2 with
  | nil =>
    intro acc p4 _ hp4
    rcases hp4 with rfl | rfl | ⟨d, e, rfl, hd, hdig, he⟩
    · simp [matchTail]
    · simp [matchTail, portMatch]
    · have hpm : portMatch (':' :: (d ++ e)) = some d :=
        (portMatch_eq_some _ d).mpr ⟨e, rfl, hd, hdig, he⟩
      simp only [List.nil_append, matchTail, hpm]
      simp
  | cons c t ih =>
    intro acc p4 hh hp4
    have hc : c ≠ '\n' := hh c (by simp)
    simp only [List.cons_append, matchTail]
    cases hpm : portMatch (c :: (t ++ p4)) with
    | some d => simp
    | none =>
      simp only [if_neg hc]
      exact ih (c :: acc) p4 (fun x hx => hh x (by simp [hx])) hp4

/-- Helper: the character data of a constructed string. -/
theorem data_mk (l : List Char) : (String.mk l).data = l := rfl

/-- Helper: port representations at string and list level agree. -/
theorem portRepr_map (pl : Option (List Char)) :
    portRepr (Option.map String.mk pl) = portReprL pl := by
  cases pl <;> rfl

/-- Forward characterization of Proxy.parse_server: a successful parse
returns an actual decomposition of the input. -/
theorem parse_server_some_decomp (s sc h : String) (p : Option String)
    (hp : Proxy.parse_server s = some (sc, h, p)) : parsedDecomp s sc h p := by
  unfold Proxy.parse_server at hp
  by_cases hw : (s.data.takeWhile wordChar).isEmpty = true
  · rw [if_pos hw] at hp; exact absurd hp (by simp)
  · rw [if_neg hw] at hp
    cases hd : s.data.dropWhile wordChar with
    | nil => rw [hd] at hp; exact absurd hp (by simp)
    | cons a t1 =>
      cases t1 with
      | nil => rw [hd] at hp; exact absurd hp (by simp)
      | cons b t2 =>
        cases t2 with
        | nil => rw [hd] at hp; exact absurd hp (by simp)
        | cons c rest =>
          rw [hd] at hp
          have hp2 : (if a = ':' ∧ b = '/' ∧ c = '/' then
              (matchTail [] rest).map (fun up =>
                (String.mk (s.data.takeWhile wordChar), String.mk up.1,
                  Option.map String.mk up.2))
              else none) = some (sc, h, p) := hp
          clear hp
          rename' hp2 => hp
          by_cases habc : a = ':' ∧ b = '/' ∧ c = '/'
          · rw [if_pos habc] at hp
            obtain ⟨rfl, rfl, rfl⟩ := habc
            cases hmt : matchTail [] rest with
            | none => rw [hmt] at hp; exact absurd hp (by simp)
            | some up =>
              obtain ⟨u, pl⟩ := up
              rw [hmt] at hp
              simp only [Option.map_some', Option.some_inj, Prod.mk.injEq] at hp
              obtain ⟨hsc, hh, hpp⟩ := hp
              subst hsc
              subst hh
              subst hpp
              obtain ⟨h2, e, hu, hrest, hh2, he, hdport⟩ :=
                matchTail_some_decomp rest [] u pl hmt
              simp only [List.reverse_nil, List.nil_append] at hu
              subst hu
              refine ⟨e, ?_, ?_, ?_, he, ?_⟩
              · rw [data_mk, data_mk, portRepr_map, ← hrest, ← hd]
                exact (List.takeWhile_append_dropWhile _ _).symm
              · constructor
                · intro hnil
                  rw [data_mk] at hnil
                  rw [hnil] at hw
                  exact hw rfl
                · intro x hx
                  rw [data_mk] at hx
                  exact List.mem_takeWhile_imp hx
              · intro x hx
                rw [data_mk] at hx
                exact hh2 x hx
              · intro d hd2
                cases pl with
                | none => exact absurd hd2 (by simp)
                | some dl =>
                  simp only [Option.map_some', Option.some_inj] at hd2
                  subst hd2
                  obtain ⟨hne, hdig⟩ := hdport dl rfl
                  refine ⟨?_, ?_⟩
                  · rw [data_mk]; exact hne
                  · intro x hx
                    rw [data_mk] at hx
                    exact hdig x hx
          · rw [if_neg habc] at hp
            exact absurd hp (by simp)

/-- Backward characterization: any input of the amended grammar shape parses
successfully. -/
theorem parse_server_isSome_of_grammar (s : String) (hg : serverGrammar s) :
    (Proxy.parse_server s).isSome = true := by
  obtain ⟨w, h, p4, hs, ⟨hwne, hword⟩, hhost, hport⟩ := hg
  have hcolon : wordChar ':' = false := by decide
  have htk : s.data.takeWhile wordChar = w := by
    rw [hs]; exact takeWhile_app wordChar w ':' ('/' :: '/' :: (h ++ p4)) hword hcolon
  have hdw : s.data.dropWhile wordChar = ':' :: '/' :: '/' :: (h ++ p4) := by
    rw [hs]; exact dropWhile_app wordChar w ':' ('/' :: '/' :: (h ++ p4)) hword hcolon
  have hwe : (s.data.takeWhile wordChar).isEmpty = false := by
    rw [htk]
    cases w with
    | nil => exact absurd rfl hwne
    | cons x xs => rfl
  unfold Proxy.parse_server
  rw [if_neg (by simp [hwe]), hdw]
  simp only [and_self, if_pos, Option.isSome_map']
  exact matchTail_isSome h [] p4 hhost hport

/-- Full success characterization of Proxy.parse_server: the regex matches
exactly the strings of the amended server grammar. -/
theorem parse_server_isSome_iff (s : String) :
    (Proxy.parse_server s).isSome = true ↔ serverGrammar s := by
  constructor
  · intro hs
    rw [Option.isSome_iff_exists] at hs
    obtain ⟨⟨sc, h, p⟩, hp⟩ := hs
    obtain ⟨e, heq, hsch, hhost, he, hdig⟩ := parse_server_some_decomp s sc h p hp
    refine ⟨sc.data, h.data, portRepr p ++ e, by simpa [List.append_assoc] using heq, hsch,
      hhost, ?_⟩
    cases p with
    | none =>
      rcases he with rfl | rfl
      · exact Or.inl rfl
      · exact Or.inr (Or.inl rfl)
    | some d =>
      refine Or.inr (Or.inr ⟨d.data, e, ?_, ?_, ?_, he⟩)
      · simp [portRepr]
      · exact (hdig d rfl).1
      · exact (hdig d rfl).2
  · exact parse_server_isSome_of_grammar s

/-- Helper: members of an all-satisfying list differ from any failing
character. -/
theorem all_ne_of_pred (p : Char → Bool) (y : Char) (hy : p y = false) (l : List Char)
    (hl : ∀ x ∈ l, p x = true) : ∀ x ∈ l, x ≠ y := by
  intro x hx he
  have h1 := hl x hx
  rw [he, hy] at h1
  exact absurd h1 (by simp)

/-- Helper: the octet test spelled as a proposition. -/
theorem octet3_iff (o : List Char) :
    octet3 o = true ↔ 1 ≤ o.length ∧ o.length ≤ 3 ∧ ∀ x ∈ o, Char.isDigit x = true := by
  simp [octet3, List.all_eq_true, and_assoc]

/-- Helper: the hex group test spelled as a proposition. -/
theorem hexGroup_iff (g : List Char) :
    hexGroup g = true ↔ g.length ≤ 4 ∧ ∀ x ∈ g, hexDigit x = true := by
  simp [hexGroup, List.all_eq_true]

/-- Characterization of one digits-then-dot repetition of the IPv4 regex. -/
theorem chompOctetDot_eq_some (l r : List Char) :
    chompOctetDot l = some r ↔ ∃ o, l = o ++ '.' :: r ∧ octet3 o = true := by
  constructor
  · intro h
    unfold chompOctetDot at h
    split_ifs at h with hlen
    cases hd : l.dropWhile Char.isDigit with
    | nil => rw [hd] at h; exact absurd h (by simp)
    | cons c t =>
      rw [hd] at h
      simp only [] at h
      split_ifs at h with hc
      subst hc
      rw [Option.some_inj] at h
      subst h
      refine ⟨l.takeWhile Char.isDigit, ?_, ?_⟩
      · rw [← hd]
        exact (List.takeWhile_append_dropWhile _ _).symm
      · rw [octet3_iff]
        rw [Bool.and_eq_true, decide_eq_true_iff, decide_eq_true_iff] at hlen
        exact ⟨hlen.1, hlen.2, fun x hx => List.mem_takeWhile_imp hx⟩
  · rintro ⟨o, rfl, ho⟩
    rw [octet3_iff] at ho
    obtain ⟨h1, h3, hdig⟩ := ho
    have hdot : Char.isDigit '.' = false := by decide
    have htk : ((o ++ '.' :: r).takeWhile Char.isDigit) = o :=
      takeWhile_app Char.isDigit o '.' r hdig hdot
    have hdw : ((o ++ '.' :: r).dropWhile Char.isDigit) = '.' :: r :=
      dropWhile_app Char.isDigit o '.' r hdig hdot
    unfold chompOctetDot
    rw [htk, hdw, if_pos (by simp [h1, h3])]
    simp

/-- Characterization of the final digit group and anchor of the IPv4 regex. -/
theorem lastOctet_iff (l : List Char) :
    lastOctet l = true ↔ ∃ o e, l = o ++ e ∧ octet3 o = true ∧ (e = [] ∨ e = ['\n']) := by
  constructor
  · intro h
    unfold lastOctet at h
    rw [Bool.and_eq_true, Bool.and_eq_true] at h
    obtain ⟨⟨h1, h3⟩, hem⟩ := h
    refine ⟨l.takeWhile Char.isDigit, l.dropWhile Char.isDigit,
      (List.takeWhile_append_dropWhile _ _).symm, ?_, (endMark_iff _).mp hem⟩
    rw [octet3_iff]
    rw [decide_eq_true_iff] at h1 h3
    exact ⟨h1, h3, fun x hx => List.mem_takeWhile_imp hx⟩
  · rintro ⟨o, e, rfl, ho, he⟩
    rw [octet3_iff] at ho
    obtain ⟨h1, h3, hdig⟩ := ho
    have hnl : Char.isDigit '\n' = false := by decide
    have htk : ((o ++ e).takeWhile Char.isDigit) = o :=
      takeWhile_app_end Char.isDigit o e hdig hnl he
    have hdw : ((o ++ e).dropWhile Char.isDigit) = e :=
      dropWhile_app_end Char.isDigit o e hdig hnl he
    unfold lastOctet
    rw [htk, hdw]
    simp [h1, h3, (endMark_iff e).mpr he]

/-- Full characterization of valid_ipv4: the regex accepts exactly four dot
separated octet groups, followed by the anchor remainder. -/
theorem valid_ipv4_iff (s : String) :
    valid_ipv4 s = true ↔
      ∃ core e, s.data = core ++ e ∧ (e = [] ∨ e = ['\n']) ∧ fourGroups core = true := by
  have hdot : Char.isDigit '.' = false := by decide
  constructor
  · intro h
    unfold valid_ipv4 at h
    cases h1 : chompOctetDot s.data with
    | none => rw [h1] at h; exact absurd h (by simp)
    | some r1 =>
      rw [h1] at h
      have hb : (match chompOctetDot r1 with
        | none => false
        | some r2 =>
          match chompOctetDot r2 with
          | none => false
          | some r3 => lastOctet r3) = true := h
      clear h
      cases h2 : chompOctetDot r1 with
      | none => rw [h2] at hb; exact absurd hb (by simp)
      | some r2 =>
        rw [h2] at hb
        have hc : (match chompOctetDot r2 with
          | none => false
          | some r3 => lastOctet r3) = true := hb
        clear hb
        cases h3 : chompOctetDot r2 with
        | none => rw [h3] at hc; exact absurd hc (by simp)
        | some r3 =>
          rw [h3] at hc
          have h : lastOctet r3 = true := hc
          clear hc
          obtain ⟨o1, hs1, ho1⟩ := (chompOctetDot_eq_some _ _).mp h1
          obtain ⟨o2, hs2, ho2⟩ := (chompOctetDot_eq_some _ _).mp h2
          obtain ⟨o3, hs3, ho3⟩ := (chompOctetDot_eq_some _ _).mp h3
          obtain ⟨o4, e, hs4, ho4, he⟩ := (lastOctet_iff _).mp h
          refine ⟨o1 ++ '.' :: (o2 ++ '.' :: (o3 ++ '.' :: o4)), e, ?_, he, ?_⟩
          · rw [hs1, hs2, hs3, hs4]
            simp [List.append_assoc]
          · have hsplit : splitOnChar '.' (o1 ++ '.' :: (o2 ++ '.' :: (o3 ++ '.' :: o4)))
                = [o1, o2, o3, o4] := by
              rw [splitOnChar_app_delim '.' o1 _
                  (all_ne_of_pred Char.isDigit '.' hdot o1 ((octet3_iff o1).mp ho1).2.2),
                splitOnChar_app_delim '.' o2 _
                  (all_ne_of_pred Char.isDigit '.' hdot o2 ((octet3_iff o2).mp ho2).2.2),
                splitOnChar_app_delim '.' o3 _
                  (all_ne_of_pred Char.isDigit '.' hdot o3 ((octet3_iff o3).mp ho3).2.2),
                splitOnChar_no_delim '.' o4
                  (all_ne_of_pred Char.isDigit '.' hdot o4 ((octet3_iff o4).mp ho4).2.2)]
            unfold fourGroups
            rw [hsplit]
            simp [ho1, ho2, ho3, ho4]
  · rintro ⟨core, e, hs, he, hfg⟩
    unfold fourGroups at hfg
    rw [Bool.and_eq_true, decide_eq_true_iff] at hfg
    obtain ⟨hlen, hall⟩ := hfg
    rcases hsegs : splitOnChar '.' core with _ | ⟨o1, _ | ⟨o2, _ | ⟨o3, _ | ⟨o4, _ | ⟨o5, rest⟩⟩⟩⟩⟩ <;>
      rw [hsegs] at hlen <;> simp at hlen
    rw [hsegs] at hall
    simp only [List.all_cons, List.all_nil, Bool.and_eq_true, Bool.and_true] at hall
    obtain ⟨ho1, ho2, ho3, ho4⟩ := hall
    have hcore : core = o1 ++ '.' :: (o2 ++ '.' :: (o3 ++ '.' :: o4)) := by
      have hj := joinSep_splitOnChar '.' core
      rw [hsegs] at hj
      simp only [joinSep] at hj
      exact hj.symm
    have hc1 : chompOctetDot s.data = some (o2 ++ '.' :: (o3 ++ '.' :: (o4 ++ e))) := by
      rw [chompOctetDot_eq_some]
      exact ⟨o1, by rw [hs, hcore]; simp [List.append_assoc], ho1⟩
    have hc2 : chompOctetDot (o2 ++ '.' :: (o3 ++ '.' :: (o4 ++ e)))
        = some (o3 ++ '.' :: (o4 ++ e)) := by
      rw [chompOctetDot_eq_some]
      exact ⟨o2, rfl, ho2⟩
    have hc3 : chompOctetDot (o3 ++ '.' :: (o4 ++ e)) = some (o4 ++ e) := by
      rw [chompOctetDot_eq_some]
      exact ⟨o3, rfl, ho3⟩
    have hc4 : lastOctet (o4 ++ e) = true := by
      rw [lastOctet_iff]
      exact ⟨o4, e, rfl, ho4, he⟩
    unfold valid_ipv4
    rw [hc1]
    show (match chompOctetDot (o2 ++ '.' :: (o3 ++ '.' :: (o4 ++ e))) with
      | none => false
      | some r2 =>
        match chompOctetDot r2 with
        | none => false
        | some r3 => lastOctet r3) = true
    rw [hc2]
    show (match chompOctetDot (o3 ++ '.' :: (o4 ++ e)) with
      | none => false
      | some r3 => lastOctet r3) = true
    rw [hc3]
    show lastOctet (o4 ++ e) = true
    exact hc4

/-- Step equation of ipv6Units when no character remains after the hex run. -/
theorem ipv6Units_succ_nil (fuel : Nat) (l : List Char) (count : Nat)
    (hd : l.dropWhile hexDigit = []) :
    ipv6Units (fuel + 1) l count
      = (decide (1 ≤ count) && decide ((l.takeWhile hexDigit).length ≤ 4) && endMark []) := by
  simp only [ipv6Units]
  rw [hd]

/-- Step equation of ipv6Units at a colon: one more repetition is consumed. -/
theorem ipv6Units_succ_colon (fuel : Nat) (l : List Char) (count : Nat) (rest : List Char)
    (hd : l.dropWhile hexDigit = ':' :: rest) :
    ipv6Units (fuel + 1) l count
      = (decide ((l.takeWhile hexDigit).length ≤ 4) && decide (count < 7)
          && ipv6Units fuel rest (count + 1)) := by
  simp only [ipv6Units]
  rw [hd]
  show (if ':' = ':' then _ else _) = _
  rw [if_pos rfl]

/-- Step equation of ipv6Units at a non-colon, non-hex character: only the
anchor can match. -/
theorem ipv6Units_succ_other (fuel : Nat) (l : List Char) (count : Nat) (c : Char)
    (rest : List Char) (hd : l.dropWhile hexDigit = c :: rest) (hc : c ≠ ':') :
    ipv6Units (fuel + 1) l count
      = (decide (1 ≤ count) && decide ((l.takeWhile hexDigit).length ≤ 4)
          && endMark (c :: rest)) := by
  simp only [ipv6Units]
  rw [hd]
  show (if c = ':' then _ else _) = _
  rw [if_neg hc]

/-- Helper: appending after the tail of a repetition join. -/
theorem unitsJoin_append (gs : List (List Char)) (x y : List Char) :
    unitsJoin gs (x ++ y) = unitsJoin gs x ++ y := by
  induction gs with
  | nil => rfl
  | cons g gs ih => simp [unitsJoin, ih]

/-- Characterization of the repetition loop of the valid_ipv6 regex: it
accepts exactly the strings made of hex-group repetitions, a final hex group
and an anchor remainder, with the repetition bound counted from count. -/
theorem ipv6Units_iff (fuel : Nat) :
    ∀ (l : List Char) (count : Nat), l.length < fuel → count ≤ 7 →
      (ipv6Units fuel l count = true ↔
        ∃ gs g e, l = unitsJoin gs (g ++ e)
          ∧ (∀ gi ∈ gs, hexGroup gi = true) ∧ hexGroup g = true
          ∧ (e = [] ∨ e = ['\n'])
          ∧ 1 ≤ count + gs.length ∧ count + gs.length ≤ 7) := by
  have hcolonhex : hexDigit ':' = false := by decide
  have hnlhex : hexDigit '\n' = false := by decide
  induction fuel with
  | zero =>
    intro l count hf
    exact absurd hf (by omega)
  | succ fuel ih =>
    intro l count hf hc7
    have hsplit : l.takeWhile hexDigit ++ l.dropWhile hexDigit = l :=
      List.takeWhile_append_dropWhile hexDigit l
    have htkhex : ∀ x ∈ l.takeWhile hexDigit, hexDigit x = true :=
      fun x hx => List.mem_takeWhile_imp hx
    cases hd : l.dropWhile hexDigit with
    | nil =>
      rw [ipv6Units_succ_nil fuel l count hd]
      have hl : l = l.takeWhile hexDigit := by
        rw [hd] at hsplit
        simpa using hsplit.symm
      constructor
      · intro h
        simp only [Bool.and_eq_true, decide_eq_true_iff] at h
        refine ⟨[], l.takeWhile hexDigit, [], by simpa [unitsJoin] using hl, by simp, ?_,
          Or.inl rfl, by simpa using h.1.1, by simpa using hc7⟩
        rw [hexGroup_iff]
        exact ⟨h.1.2, htkhex⟩
      · rintro ⟨gs, g, e, hl2, hgs, hg, he, hb1, hb7⟩
        cases gs with
        | cons g0 gs2 =>
          exfalso
          have hg0 : ∀ x ∈ g0, hexDigit x = true :=
            fun x hx => ((hexGroup_iff g0).mp (hgs g0 (by simp))).2 x hx
          have hcontra : l.dropWhile hexDigit = ':' :: unitsJoin gs2 (g ++ e) := by
            rw [hl2]
            exact dropWhile_app hexDigit g0 ':' (unitsJoin gs2 (g ++ e)) hg0 hcolonhex
          rw [hd] at hcontra
          exact List.noConfusion hcontra
        | nil =>
          simp only [unitsJoin] at hl2
          have hghex : ∀ x ∈ g, hexDigit x = true :=
            fun x hx => ((hexGroup_iff g).mp hg).2 x hx
          have htk : l.takeWhile hexDigit = g := by
            rw [hl2]
            exact takeWhile_app_end hexDigit g e hghex hnlhex he
          simp only [Bool.and_eq_true, decide_eq_true_iff]
          refine ⟨⟨by simpa using hb1, ?_⟩, by simp [endMark]⟩
          rw [htk]
          exact ((hexGroup_iff g).mp hg).1
    | cons c rest =>
      have hlen : l.length = (l.takeWhile hexDigit).length + rest.length + 1 := by
        conv_lhs => rw [← hsplit, hd]
        simp only [List.length_append, List.length_cons]
        omega
      have hfr : rest.length < fuel := by omega
      by_cases hcc : c = ':'
      · subst hcc
        rw [ipv6Units_succ_colon fuel l count rest hd]
        constructor
        · intro h
          simp only [Bool.and_eq_true, decide_eq_true_iff] at h
          obtain ⟨⟨hlen4, hlt7⟩, hrec⟩ := h
          obtain ⟨gs2, g, e, hrest, hgs2, hg, he, hb1, hb7⟩ :=
            (ih rest (count + 1) hfr (by omega)).mp hrec
          refine ⟨l.takeWhile hexDigit :: gs2, g, e, ?_, ?_, hg, he, ?_, ?_⟩
          · show l = l.takeWhile hexDigit ++ ':' :: unitsJoin gs2 (g ++ e)
            rw [← hrest, ← hd]
            exact hsplit.symm
          · intro gi hgi
            rcases List.mem_cons.mp hgi with rfl | hgi
            · rw [hexGroup_iff]; exact ⟨hlen4, htkhex⟩
            · exact hgs2 gi hgi
          · simp only [List.length_cons]; omega
          · simp only [List.length_cons]; omega
        · rintro ⟨gs, g, e, hl2, hgs, hg, he, hb1, hb7⟩
          cases gs with
          | nil =>
            exfalso
            simp only [unitsJoin] at hl2
            have hghex : ∀ x ∈ g, hexDigit x = true :=
              fun x hx => ((hexGroup_iff g).mp hg).2 x hx
            have hdw : l.dropWhile hexDigit = e := by
              rw [hl2]
              exact dropWhile_app_end hexDigit g e hghex hnlhex he
            rw [hd] at hdw
            rcases he with rfl | rfl
            · exact List.noConfusion hdw
            · injection hdw with hdw1 hdw2
              exact absurd hdw1 (by decide)
          | cons g0 gs2 =>
            have hg0 : ∀ x ∈ g0, hexDigit x = true :=
              fun x hx => ((hexGroup_iff g0).mp (hgs g0 (by simp))).2 x hx
            have hdw : l.dropWhile hexDigit = ':' :: unitsJoin gs2 (g ++ e) := by
              rw [hl2]
              exact dropWhile_app hexDigit g0 ':' (unitsJoin gs2 (g ++ e)) hg0 hcolonhex
            have htk : l.takeWhile hexDigit = g0 := by
              rw [hl2]
              exact takeWhile_app hexDigit g0 ':' (unitsJoin gs2 (g ++ e)) hg0 hcolonhex
            rw [hd] at hdw
            injection hdw with hdw1 hdw2
            have hlen7 : count + (g0 :: gs2).length ≤ 7 := hb7
            simp only [List.length_cons] at hlen7
            simp only [Bool.and_eq_true, decide_eq_true_iff]
            refine ⟨⟨?_, by omega⟩, ?_⟩
            · rw [htk]
              exact ((hexGroup_iff g0).mp (hgs g0 (by simp))).1
            · apply (ih rest (count + 1) hfr (by omega)).mpr
              exact ⟨gs2, g, e, hdw2, fun gi hgi => hgs gi (by simp [hgi]), hg, he,
                by omega, by simp only [List.length_cons] at hb7 ⊢; omega⟩
      · rw [ipv6Units_succ_other fuel l count c rest hd hcc]
        constructor
        · intro h
          simp only [Bool.and_eq_true, decide_eq_true_iff] at h
          obtain ⟨⟨hb1, hlen4⟩, hem⟩ := h
          rcases (endMark_iff _).mp hem with hnil | hnl2
          · exact absurd hnil (by simp)
          · refine ⟨[], l.takeWhile hexDigit, ['\n'], ?_, by simp, ?_, Or.inr rfl,
              by simpa using hb1, by simpa using hc7⟩
            · show l = l.takeWhile hexDigit ++ ['\n']
              rw [← hnl2, ← hd]
              exact hsplit.symm
            · rw [hexGroup_iff]
              exact ⟨hlen4, htkhex⟩
        · rintro ⟨gs, g, e, hl2, hgs, hg, he, hb1, hb7⟩
          cases gs with
          | cons g0 gs2 =>
            exfalso
            have hg0 : ∀ x ∈ g0, hexDigit x = true :=
              fun x hx => ((hexGroup_iff g0).mp (hgs g0 (by simp))).2 x hx
            have hdw : l.dropWhile hexDigit = ':' :: unitsJoin gs2 (g ++ e) := by
              rw [hl2]
              exact dropWhile_app hexDigit g0 ':' (unitsJoin gs2 (g ++ e)) hg0 hcolonhex
            rw [hd] at hdw
            injection hdw with hdw1 hdw2
            exact hcc hdw1
          | nil =>
            simp only [unitsJoin] at hl2
            have hghex : ∀ x ∈ g, hexDigit x = true :=
              fun x hx => ((hexGroup_iff g).mp hg).2 x hx
            have hdw : l.dropWhile hexDigit = e := by
              rw [hl2]
              exact dropWhile_app_end hexDigit g e hghex hnlhex he
            have htk : l.takeWhile hexDigit = g := by
              rw [hl2]
              exact takeWhile_app_end hexDigit g e hghex hnlhex he
            rw [hd] at hdw
            simp only [Bool.and_eq_true, decide_eq_true_iff]
            refine ⟨⟨by simpa using hb1, ?_⟩, ?_⟩
            · rw [htk]
              exact ((hexGroup_iff g).mp hg).1
            · rw [hdw]
              exact (endMark_iff e).mpr he

/-- Helper: joining segments with a colon equals the repetition join. -/
theorem joinSep_units (gs : List (List Char)) (g : List Char) :
    joinSep ':' (gs ++ [g]) = unitsJoin gs g := by
  induction gs with
  | nil => rfl
  | cons a gs ih =>
    cases gs with
    | nil => rfl
    | cons b gs2 =>
      show a ++ ':' :: joinSep ':' ((b :: gs2) ++ [g]) = a ++ ':' :: unitsJoin (b :: gs2) g
      rw [ih]

/-- Helper: splitting a repetition join recovers the repetition groups. -/
theorem splitOn_unitsJoin (gs : List (List Char)) (g : List Char)
    (hgs : ∀ gi ∈ gs, ∀ x ∈ gi, x ≠ ':') :
    splitOnChar ':' (unitsJoin gs g) = gs ++ splitOnChar ':' g := by
  induction gs with
  | nil => rfl
  | cons a gs ih =>
    show splitOnChar ':' (a ++ ':' :: unitsJoin gs g) = (a :: gs) ++ splitOnChar ':' g
    rw [splitOnChar_app_delim ':' a (unitsJoin gs g) (hgs a (by simp))]
    rw [ih (fun gi hgi => hgs gi (by simp [hgi]))]
    rfl

/-- Full characterization of valid_ipv6: the regex accepts exactly two to
eight colon separated hex groups followed by the anchor remainder. -/
theorem valid_ipv6_iff (s : String) :
    valid_ipv6 s = true ↔
      ∃ core e, s.data = core ++ e ∧ (e = [] ∨ e = ['\n']) ∧ ipv6Groups core = true := by
  have hcolonhex : hexDigit ':' = false := by decide
  have hchar := ipv6Units_iff (s.data.length + 1) s.data 0 (by omega) (by omega)
  unfold valid_ipv6
  rw [hchar]
  constructor
  · rintro ⟨gs, g, e, hl, hgs, hg, he, hb1, hb7⟩
    refine ⟨unitsJoin gs g, e, ?_, he, ?_⟩
    · rw [hl, unitsJoin_append]
    · unfold ipv6Groups
      have hnocolon : ∀ gi ∈ gs, ∀ x ∈ gi, x ≠ ':' := fun gi hgi =>
        all_ne_of_pred hexDigit ':' hcolonhex gi ((hexGroup_iff gi).mp (hgs gi hgi)).2
      rw [splitOn_unitsJoin gs g hnocolon,
        splitOnChar_no_delim ':' g
          (all_ne_of_pred hexDigit ':' hcolonhex g ((hexGroup_iff g).mp hg).2)]
      simp only [Bool.and_eq_true, decide_eq_true_iff, List.all_eq_true, List.length_append,
        List.length_cons, List.length_nil]
      refine ⟨⟨by omega, by omega⟩, ?_⟩
      intro x hx
      rcases List.mem_append.mp hx with hx | hx
      · exact hgs x hx
      · rw [List.mem_singleton.mp hx]
        exact hg
  · rintro ⟨core, e, hs, he, hb⟩
    unfold ipv6Groups at hb
    simp only [Bool.and_eq_true, decide_eq_true_iff, List.all_eq_true] at hb
    obtain ⟨⟨h2, h8⟩, hall⟩ := hb
    have hne : splitOnChar ':' core ≠ [] := splitOnChar_ne_nil ':' core
    have hlast := List.dropLast_append_getLast hne
    refine ⟨(splitOnChar ':' core).dropLast, (splitOnChar ':' core).getLast hne, e,
      ?_, ?_, ?_, he, ?_, ?_⟩
    · rw [hs, unitsJoin_append, ← joinSep_units, hlast, joinSep_splitOnChar]
    · intro gi hgi
      exact hall gi (List.dropLast_subset _ hgi)
    · exact hall _ (List.getLast_mem hne)
    · simp only [List.length_dropLast]
      omega
    · simp only [List.length_dropLast]
      omega

/-- Helper: one attempt is skipped exactly when it fails in the sense of the
code: raised request exception, error status, or invalid body. -/
theorem tryOne_none_iff (oracle : String → HttpOutcome) (url : String) :
    tryOne oracle url = none ↔ attemptFails (oracle url) = true := by
  unfold tryOne attemptFails
  cases ho : oracle url with
  | exc => simp
  | resp status text =>
    cases hrs : raiseForStatus status <;> cases hv : validate_ip (strip text) <;>
      simp [hrs, hv]

/-- Helper: a successful attempt returns a validated address. -/
theorem tryOne_some_valid (oracle : String → HttpOutcome) (url ip : String)
    (h : tryOne oracle url = some ip) : validate_ip ip = true := by
  unfold tryOne at h
  cases ho : oracle url with
  | exc => rw [ho] at h; exact absurd h (by simp)
  | resp status text =>
    rw [ho] at h
    have h2 : (if raiseForStatus status = true then none
        else if validate_ip (strip text) = true then some (strip text) else none)
        = some ip := h
    clear h
    split_ifs at h2 with hrs hv
    rw [Option.some_inj] at h2
    rw [← h2]
    exact hv

/-- Helper: when every URL of the list fails, the loop walks the whole list
and ends in the terminal InvalidIP raise. -/
theorem loop_all_fail (oracle : String → HttpOutcome) (proxy : Option String) :
    ∀ l : List String, (∀ u ∈ l, tryOne oracle u = none) →
      public_ip_loop oracle proxy l
        = (.err (.invalidIP "Failed to get IP address"),
            l.map (fun u => ⟨u, proxiesArg proxy⟩)) := by
  intro l
  induction l with
  | nil => intro _; rfl
  | cons url rest ih =>
    intro hall
    unfold public_ip_loop
    rw [hall url (by simp), ih (fun u hu => hall u (by simp [hu]))]
    simp

/-- Helper: when a prefix fails and the next URL succeeds, the loop returns
that value and exactly the attempts up to it, in order. -/
theorem loop_first_success (oracle : String → HttpOutcome) (proxy : Option String)
    (ip url : String) :
    ∀ pre post : List String, (∀ u ∈ pre, tryOne oracle u = none) →
      tryOne oracle url = some ip →
      public_ip_loop oracle proxy (pre ++ url :: post)
        = (.ok ip, (pre ++ [url]).map (fun u => ⟨u, proxiesArg proxy⟩)) := by
  intro pre
  induction pre with
  | nil =>
    intro post _ hsucc
    simp only [List.nil_append]
    unfold public_ip_loop
    rw [hsucc]
    simp
  | cons a pre ih =>
    intro post hall hsucc
    simp only [List.cons_append]
    unfold public_ip_loop
    rw [hall a (by simp), ih post (fun u hu => hall u (by simp [hu])) hsucc]
    simp

/-- Helper: the loop result is always either a validated address or the
terminal InvalidIP raise; no other outcome exists. -/
theorem loop_shape (oracle : String → HttpOutcome) (proxy : Option String) :
    ∀ l : List String,
      (∃ ip, (public_ip_loop oracle proxy l).1 = .ok ip ∧ validate_ip ip = true)
        ∨ (public_ip_loop oracle proxy l).1
            = .err (.invalidIP "Failed to get IP address") := by
  intro l
  induction l with
  | nil => exact Or.inr rfl
  | cons url rest ih =>
    unfold public_ip_loop
    cases ht : tryOne oracle url with
    | some ip => exact Or.inl ⟨ip, rfl, tryOne_some_valid oracle url ip ht⟩
    | none => exact ih

/-- Helper: every recorded attempt carries the proxies argument built from
the proxy, and nothing else. -/
theorem loop_trace (oracle : String → HttpOutcome) (proxy : Option String) :
    ∀ (l : List String) (a : Attempt), a ∈ (public_ip_loop oracle proxy l).2 →
      a.proxies = proxiesArg proxy := by
  intro l
  induction l with
  | nil =>
    intro a ha
    exact absurd ha (by simp [public_ip_loop])
  | cons url rest ih =>
    intro a ha
    unfold public_ip_loop at ha
    cases ht : tryOne oracle url with
    | some ip =>
      rw [ht] at ha
      have ha2 : a ∈ [(⟨url, proxiesArg proxy⟩ : Attempt)] := ha
      rw [List.mem_singleton] at ha2
      rw [ha2]
    | none =>
      rw [ht] at ha
      have ha2 : a ∈ (⟨url, proxiesArg proxy⟩ : Attempt)
          :: (public_ip_loop oracle proxy rest).2 := ha
      rcases List.mem_cons.mp ha2 with rfl | ha3
      · rfl
      · exact ih a ha3

/-- Claim C1 (code bug): at the failing input Proxy with server
http://example.com:8080 and empty username and password, parse_server
succeeds with the expected triple, yet as_string returns
http://@example.com:8080 rather than the original string: the at-sign
separator is emitted unconditionally even with no credentials, so the
round-trip property claimed by the spec does not hold on the code. -/
theorem c1_as_string_at_failing_input :
    Proxy.parse_server "http://example.com:8080" = some ("http", "example.com", some "8080")
    ∧ Proxy.as_string ⟨"http://example.com:8080", "", ""⟩ = some "http://@example.com:8080"
    ∧ "http://@example.com:8080" ≠ "http://example.com:8080" := by
  refine ⟨by decide, by decide, by decide⟩

/-- Claim C2 counterexample: with the proxy string not-a-url, which
parse_server rejects, public_ip does not raise InvalidProxy before network
activity; under an oracle whose first endpoint answers, it performs a network
attempt carrying the unparsed string verbatim and returns the address. -/
theorem c2_counterexample :
    Proxy.parse_server "not-a-url" = none
    ∧ public_ip (some "not-a-url") oracleAllOk
        = (.ok "1.2.3.4",
            [⟨"https://api.ipify.org", some [("http", "not-a-url"), ("https", "not-a-url")]⟩])
    ∧ (public_ip (some "not-a-url") oracleAllOk).2 ≠ [] := by
  refine ⟨by decide, by decide, by decide⟩

/-- Claim C2 (amended): resolve never parses or validates the supplied proxy;
no call of public_ip can raise InvalidProxy, and every attempted request
carries the proxies mapping built verbatim from the proxy string. -/
theorem c2_amended_no_proxy_validation (p : String) (oracle : String → HttpOutcome) :
    (∀ msg, (public_ip (some p) oracle).1 ≠ .err (.invalidProxy msg))
    ∧ (∀ a ∈ (public_ip (some p) oracle).2, a.proxies = proxiesArg (some p)) := by
  constructor
  · intro msg hcontra
    unfold public_ip at hcontra
    rcases loop_shape oracle (some p) URLS with ⟨ip, hok, _⟩ | herr
    · rw [hok] at hcontra
      exact absurd hcontra (by simp)
    · rw [herr] at hcontra
      exact absurd hcontra (by simp)
  · intro a ha
    unfold public_ip at ha
    exact loop_trace oracle (some p) URLS a ha

/-- Claim C2 witness: the single attempt of the counterexample run indeed
carries the verbatim proxies mapping. -/
theorem c2_witness :
    (⟨"https://api.ipify.org", some [("http", "not-a-url"), ("https", "not-a-url")]⟩
      : Attempt).proxies = proxiesArg (some "not-a-url") := by
  refine (c2_amended_no_proxy_validation "not-a-url" oracleAllOk).2 _ ?_
  decide

/-- Claim C3 counterexample: under the oracle answering status 304 with body
8.8.8.8, every endpoint fails in the sense stated by the claim (a non-2xx
status), yet public_ip returns the address instead of raising the terminal
InvalidIP: raise_for_status only raises for 4xx and 5xx statuses. -/
theorem c3_counterexample :
    URLS.all (fun u => claimFails (oracle304 u)) = true
    ∧ (public_ip none oracle304).1 = .ok "8.8.8.8"
    ∧ (public_ip none oracle304).1 ≠ .err (.invalidIP "Failed to get IP address") := by
  refine ⟨by decide, by decide, by decide⟩

/-- Claim C3 (amended): when every endpoint fails in the sense of the code (a
raised request error, a 4xx or 5xx status, or a body failing validation),
public_ip walks all six endpoints in order and raises the terminal InvalidIP;
moreover every run returns either a validated address or that terminal raise,
never a partial result. -/
theorem c3_amended_exhaustion (oracle : String → HttpOutcome) :
    ((∀ u ∈ URLS, attemptFails (oracle u) = true) →
      public_ip none oracle
        = (.err (.invalidIP "Failed to get IP address"),
            URLS.map (fun u => ⟨u, none⟩)))
    ∧ ∀ proxy, (∃ ip, (public_ip proxy oracle).1 = .ok ip ∧ validate_ip ip = true)
        ∨ (public_ip proxy oracle).1 = .err (.invalidIP "Failed to get IP address") := by
  constructor
  · intro hall
    unfold public_ip
    rw [loop_all_fail oracle none URLS
      (fun u hu => (tryOne_none_iff oracle u).mpr (hall u hu))]
    rfl
  · intro proxy
    exact loop_shape oracle proxy URLS

/-- Claim C3 witness: with every request raising, the run visits all six
endpoints in order and raises the terminal InvalidIP. -/
theorem c3_witness :
    public_ip none oracleExc
      = (.err (.invalidIP "Failed to get IP address"), URLS.map (fun u => ⟨u, none⟩)) :=
  (c3_amended_exhaustion oracleExc).1 (by decide)

/-- Claim C4: ordered first-success semantics of public_ip: when every
endpoint before some URL of the list fails and that URL produces a validated
body, the call returns that value, and the attempts are exactly the failing
prefix plus the successful URL, in listed order; no later endpoint is
contacted. -/
theorem c4_first_success_order (oracle : String → HttpOutcome) (pre post : List String)
    (url ip : String) (hsplit : URLS = pre ++ url :: post)
    (hfail : ∀ u ∈ pre, tryOne oracle u = none)
    (hsucc : tryOne oracle url = some ip) :
    public_ip none oracle = (.ok ip, (pre ++ [url]).map (fun u => ⟨u, none⟩)) := by
  unfold public_ip
  rw [hsplit, loop_first_success oracle none ip url pre post hfail hsucc]
  rfl

/-- Claim C4 witness: in the scenario where the first five endpoints fail by
exception, error status or garbage body, and the sixth returns 8.8.8.8, the
call returns 8.8.8.8 after exactly six attempts in listed order. -/
theorem c4_witness :
    public_ip none oracle6 = (.ok "8.8.8.8", URLS.map (fun u => ⟨u, none⟩)) :=
  c4_first_success_order oracle6
    ["https://api.ipify.org", "https://checkip.amazonaws.com", "https://ipinfo.io/ip",
     "https://icanhazip.com", "https://ifconfig.co/ip"] [] "https://ipecho.net/plain"
    "8.8.8.8" rfl (by decide) (by decide)

/-- Claim C5: memoization invariant of the cached resolver: the cache is
unchanged on failure; a hit returns the stored value with zero attempts and
no mutation; a success stores the returned value under the key; stored
entries are never lost or overwritten; and after a success any further call
with the same key returns the identical value with zero attempts. -/
theorem c5_memoization (st : Cache) (proxy : Option String) (oracle : String → HttpOutcome) :
    (∀ e, (cached_public_ip st proxy oracle).2.1 = .err e →
      (cached_public_ip st proxy oracle).1 = st)
    ∧ (∀ v, cacheLookup st proxy = some v →
      cached_public_ip st proxy oracle = (st, .ok v, []))
    ∧ (∀ ip, (cached_public_ip st proxy oracle).2.1 = .ok ip →
      cacheLookup (cached_public_ip st proxy oracle).1 proxy = some ip)
    ∧ (∀ k v, cacheLookup st k = some v →
      cacheLookup (cached_public_ip st proxy oracle).1 k = some v)
    ∧ (∀ ip, (cached_public_ip st proxy oracle).2.1 = .ok ip →
      ∀ oracle2, cached_public_ip (cached_public_ip st proxy oracle).1 proxy oracle2
        = ((cached_public_ip st proxy oracle).1, .ok ip, [])) := by
  cases hl : cacheLookup st proxy with
  | some v =>
    have hres : cached_public_ip st proxy oracle = (st, .ok v, []) := by
      unfold cached_public_ip
      rw [hl]
    rw [hres]
    refine ⟨?_, ?_, ?_, ?_, ?_⟩
    · intro e he
      simp at he
    · intro v2 hv2
      rw [Option.some_inj] at hv2
      rw [hv2]
    · intro ip hip
      simp only [] at hip
      have hip2 : IPResult.ok v = IPResult.ok ip := hip
      rw [IPResult.ok.injEq] at hip2
      subst hip2
      show cacheLookup st proxy = some v
      exact hl
    · intro k v2 hkv
      exact hkv
    · intro ip hip oracle2
      have hip2 : IPResult.ok v = IPResult.ok ip := hip
      rw [IPResult.ok.injEq] at hip2
      subst hip2
      show cached_public_ip st proxy oracle2 = (st, .ok v, [])
      unfold cached_public_ip
      rw [hl]
  | none =>
    cases hpub : public_ip proxy oracle with
    | mk r atts =>
      cases r with
      | ok ip0 =>
        have hres : cached_public_ip st proxy oracle = ((proxy, ip0) :: st, .ok ip0, atts) := by
          unfold cached_public_ip
          rw [hl, hpub]
        rw [hres]
        have hlk : cacheLookup ((proxy, ip0) :: st) proxy = some ip0 := by
          unfold cacheLookup
          rw [if_pos rfl]
        refine ⟨?_, ?_, ?_, ?_, ?_⟩
        · intro e he
          simp at he
        · intro v2 hv2
          exact absurd hv2 (by simp)
        · intro ip hip
          have hip2 : IPResult.ok ip0 = IPResult.ok ip := hip
          rw [IPResult.ok.injEq] at hip2
          subst hip2
          exact hlk
        · intro k v2 hkv
          show cacheLookup ((proxy, ip0) :: st) k = some v2
          unfold cacheLookup
          by_cases hpk : proxy = k
          · subst hpk
            rw [hl] at hkv
            exact absurd hkv (by simp)
          · rw [if_neg hpk]
            exact hkv
        · intro ip hip oracle2
          have hip2 : IPResult.ok ip0 = IPResult.ok ip := hip
          rw [IPResult.ok.injEq] at hip2
          subst hip2
          show cached_public_ip ((proxy, ip0) :: st) proxy oracle2
            = ((proxy, ip0) :: st, .ok ip0, [])
          unfold cached_public_ip
          rw [hlk]
      | err e0 =>
        have hres : cached_public_ip st proxy oracle = (st, .err e0, atts) := by
          unfold cached_public_ip
          rw [hl, hpub]
        rw [hres]
        refine ⟨?_, ?_, ?_, ?_, ?_⟩
        · intro e he
          rfl
        · intro v2 hv2
          exact absurd hv2 (by simp)
        · intro ip hip
          simp at hip
        · intro k v2 hkv
          exact hkv
        · intro ip hip
          simp at hip

/-- Claim C5 witness: a call on a cache already holding the no-proxy key
returns the stored value with no mutation and zero attempts. -/
theorem c5_witness :
    cached_public_ip [(none, "1.2.3.4")] none oracleAllOk
      = ([(none, "1.2.3.4")], .ok "1.2.3.4", []) :=
  (c5_memoization [(none, "1.2.3.4")] none oracleAllOk).2.1 "1.2.3.4" (by decide)

/-- Claim C6 counterexample: the input http:// has an empty host, which the
claim grammar with a mandatory host rejects, yet parse_server succeeds and
returns the triple with empty host: the lazy host group of the regex may
match the empty string. -/
theorem c6_counterexample :
    Proxy.parse_server "http://" = some ("http", "", none)
    ∧ claimServerC6 ("http://".data) = false := by
  refine ⟨by decide, by decide⟩

/-- Claim C6 (amended): parse_server succeeds exactly on strings of the form
scheme separator host with optional digit port and optional final newline,
where the scheme is one or more word characters and the host is any possibly
empty run of non-newline characters; each successful parse returns an actual
decomposition of its input; and parse_server rejects not-a-url. -/
theorem c6_amended_parse_charac :
    (∀ s : String, ((Proxy.parse_server s).isSome = true ↔ serverGrammar s)
      ∧ ∀ sc h p, Proxy.parse_server s = some (sc, h, p) → parsedDecomp s sc h p)
    ∧ Proxy.parse_server "not-a-url" = none := by
  refine ⟨fun s => ⟨parse_server_isSome_iff s, fun sc h p hp =>
    parse_server_some_decomp s sc h p hp⟩, by decide⟩

/-- Claim C6 witness: the parse of http://example.com:8080 returns a genuine
decomposition of the input. -/
theorem c6_witness :
    parsedDecomp "http://example.com:8080" "http" "example.com" (some "8080") :=
  (c6_amended_parse_charac.1 "http://example.com:8080").2 "http" "example.com"
    (some "8080") (by decide)

/-- Claim C7 counterexample: valid_ipv4 also accepts 1.2.3.4 followed by a
final newline, which is not four dot separated digit groups, because the
dollar anchor of Python re matches before a trailing newline; so the claimed
exact characterization fails. -/
theorem c7_counterexample :
    valid_ipv4 "1.2.3.4\n" = true ∧ fourGroups ("1.2.3.4\n".data) = false := by
  refine ⟨by decide, by decide⟩

/-- Claim C7 (amended): valid_ipv4 accepts exactly the strings of four dot
separated groups of one to three decimal digits, optionally followed by one
final newline; there is no octet range check, so 192.168.1.999 passes, and
the IPv6 literal with a double colon fails. -/
theorem c7_amended_ipv4_charac :
    (∀ s : String, valid_ipv4 s = true ↔
      ∃ core e, s.data = core ++ e ∧ (e = [] ∨ e = ['\n']) ∧ fourGroups core = true)
    ∧ valid_ipv4 "192.168.1.1" = true ∧ valid_ipv4 "192.168.1.999" = true
    ∧ valid_ipv4 "::1" = false := by
  refine ⟨valid_ipv4_iff, by decide, by decide, by decide⟩

/-- Claim C8 counterexample: valid_ipv6 accepts eight nonempty groups, as in
1:2:3:4:5:6:7:8, while the claimed grammar of one to seven groups with at
most a trailing empty group rejects it; the repetition bound of the regex
counts colons, not groups. -/
theorem c8_counterexample :
    valid_ipv6 "1:2:3:4:5:6:7:8" = true
    ∧ claimGroupsC8 ("1:2:3:4:5:6:7:8".data) = false := by
  refine ⟨by decide, by decide⟩

/-- Claim C8 (amended): valid_ipv6 accepts exactly the strings of two to
eight colon separated groups of zero to four hex digits each (equivalently
one to seven colons, empty groups permitted at any position), optionally
followed by one final newline; in particular the loopback literal passes. -/
theorem c8_amended_ipv6_charac :
    (∀ s : String, valid_ipv6 s = true ↔
      ∃ core e, s.data = core ++ e ∧ (e = [] ∨ e = ['\n']) ∧ ipv6Groups core = true)
    ∧ valid_ipv6 "::1" = true := by
  refine ⟨valid_ipv6_iff, by decide⟩

/-- Claim C9: constructing a Proxy stores arbitrary field values with no
validation, and the server format is re-checked at serialization time:
as_string fails exactly when parse_server rejects the stored server string,
for every combination of field values. -/
theorem c9_validation_at_serialization (svr usr pw : String) :
    Proxy.as_string ⟨svr, usr, pw⟩ = none ↔ Proxy.parse_server svr = none := by
  unfold Proxy.as_string
  cases hp : Proxy.parse_server svr with
  | none => simp
  | some t =>
    obtain ⟨schema, url, port⟩ := t
    cases port with
    | none => simp
    | some d =>
      by_cases hd : d ≠ ""
      · simp [hd]
      · simp [hd]

/-- Claim C10: valid_ipv6 accepts empty groups at any position and in any
number within the colon bound: the single colon, the double colon, multiple
double colons, and seven colons all pass, while eight colons exceed the
repetition bound and fail. -/
theorem c10_ipv6_empty_groups :
    valid_ipv6 ":" = true ∧ valid_ipv6 "::" = true ∧ valid_ipv6 "1::2::3" = true
    ∧ valid_ipv6 ":::::::" = true ∧ valid_ipv6 "::::::::" = false := by
  refine ⟨by decide, by decide, by decide, by decide, by decide⟩

end Camoufox
